import Mathlib

/-!
Verification of the Lincoln-historical-divergence pipeline's core logic.

This file gives a shallow embedding, in Lean 4, of the pure computational
kernels of the repository:

* `src/event_extraction/document_chunker.py` — paragraph-based chunking with
  overlap (`DocumentChunker.chunk_document`) and keyword relevance filtering
  (`DocumentChunker.find_relevant_chunks`);
* `src/llm_judge/statistics.py` — Cohen's kappa over quartile bins
  (`calculate_cohens_kappa`) and descriptive statistics (`calculate_variance`);
* `src/llm_judge/comparator.py` — grouping extractions by event and pairing
  Lincoln extractions with other authors' (`ExtractionComparator`);
* `src/event_extraction/main.py` — the resume-tracking set built when loading
  pre-existing results.

Python strings are modelled as `List Char`; Python `float` arithmetic on
exact fractions is modelled by `ℚ` (and the one square root by `ℝ`);
Python exceptions are modelled by `Except`.  The whitespace class `\s` and
`str.strip()` are modelled uniformly by the ASCII whitespace characters,
which is the alphabet all the repository's chunking behaviour lives in.
-/

namespace LincolnDivergence

/-! ## Basic character and list utilities (Python string primitives) -/

/-- The ASCII whitespace characters: the common core of Python's `str.strip()`
whitespace set and the regex class `\s`. -/
def isSpaceCh (c : Char) : Bool :=
  c = ' ' || c = '\t' || c = '\n' || c = '\r' || c = '\x0b' || c = '\x0c'

/-- The non-whitespace characters of a string, in order. -/
def nonWs (l : List Char) : List Char := l.filter (fun c => !isSpaceCh c)

/-- Python `str.lstrip()`: drop leading whitespace. -/
def lstrip (l : List Char) : List Char := l.dropWhile isSpaceCh

/-- Python `str.rstrip()`: drop trailing whitespace. -/
def rstrip (l : List Char) : List Char := (l.reverse.dropWhile isSpaceCh).reverse

/-- Python `str.strip()`: drop leading and trailing whitespace. -/
def strip (l : List Char) : List Char := rstrip (lstrip l)

/-- Python `s[-n:]` on strings: the trailing `n` characters, except that
`s[-0:]` is the whole string (a genuine Python slicing quirk). -/
def pyTakeLast (n : ℕ) (l : List Char) : List Char :=
  if n = 0 then l else l.drop (l.length - n)

/-- Python `str.lower()`, character by character. -/
def lowerL (l : List Char) : List Char := l.map Char.toLower

/-- The two-character separator `"\n\n"` used when joining paragraphs. -/
def nl2 : List Char := ['\n', '\n']

/-- Python `sub in s` for strings: `pat` occurs as a contiguous substring. -/
def containsSub (pat : List Char) : List Char → Bool
  | [] => pat.isPrefixOf []
  | c :: rest => pat.isPrefixOf (c :: rest) || containsSub pat rest

/-- Python `str.split()` with no argument: split on whitespace runs,
discarding empty fields.  `cur` is the (reversed) word being accumulated. -/
def wordsAux : List Char → List Char → List (List Char)
  | [], cur => if cur = [] then [] else [cur.reverse]
  | c :: rest, cur =>
    if isSpaceCh c then
      if cur = [] then wordsAux rest [] else cur.reverse :: wordsAux rest []
    else wordsAux rest (c :: cur)

/-- Python `str.split()` with no argument. -/
def pySplitWs (l : List Char) : List (List Char) := wordsAux l []

/-! ## Paragraph splitting (`re.split(r'\n\s*\n', text)`)

The pattern matches a newline, a greedy run of whitespace, and a final
newline.  At a given `'\n'` the (backtracking) match consumes through the
**last** newline inside the maximal whitespace run that follows; the
scanner looks for the leftmost such position and continues after the
consumed separator.  `splitGo` carries a fuel argument equal to the
remaining text length so that the recursion is structural; the fuel-0 case
is unreachable whenever `fuel ≥ l.length`. -/

/-- The index of the last `'\n'` in a list, if any. -/
def lastNewlineIdx : List Char → Option ℕ
  | [] => none
  | c :: rest =>
    match lastNewlineIdx rest with
    | some i => some (i + 1)
    | none => if c = '\n' then some 0 else none

/-- After an initial `'\n'`, the number of further characters the separator
match consumes: `k + 1` where `k` is the index of the last newline inside
the maximal whitespace run that follows.  `none` when the regex does not
match at this position. -/
def sepConsume (rest : List Char) : Option ℕ :=
  (lastNewlineIdx (rest.takeWhile isSpaceCh)).map (· + 1)

/-- Scanner for `re.split(r'\n\s*\n', text)`.  `acc` is the reversed
current field. -/
def splitGo : ℕ → List Char → List Char → List (List Char)
  | 0, _, acc => [acc.reverse]
  | _ + 1, [], acc => [acc.reverse]
  | fuel + 1, c :: rest, acc =>
    if c = '\n' then
      match sepConsume rest with
      | some n => acc.reverse :: splitGo fuel (rest.drop n) []
      | none => splitGo fuel rest (c :: acc)
    else splitGo fuel rest (c :: acc)

/-- `re.split(r'\n\s*\n', text)`. -/
def splitParas (text : List Char) : List (List Char) :=
  splitGo text.length text []

/-! ## Document chunker (`src/event_extraction/document_chunker.py`) -/

/-- The `DocumentChunker` configuration (`chunk_size=2000, overlap=200` by
default). -/
structure Chunker where
  chunk_size : ℕ := 2000
  overlap : ℕ := 200
deriving DecidableEq, Repr

/-- One chunk dictionary produced by `chunk_document`. -/
structure Chunk where
  chunk_id : List Char
  text : List Char
  start_char : ℤ
  end_char : ℤ
  chunk_index : ℕ
deriving DecidableEq, Repr

/-- `f"{document_id}_chunk_{chunk_index}"`. -/
def mkChunkId (document_id : List Char) (chunk_index : ℕ) : List Char :=
  document_id ++ "_chunk_".data ++ (Nat.repr chunk_index).data

/-- The loop state of `chunk_document`: emitted chunks, the accumulating
`current_chunk`, `chunk_start` and `chunk_index`. -/
structure ChunkState where
  chunks : List Chunk
  current : List Char
  chunkStart : ℤ
  chunkIndex : ℕ

/-- The overlap slice taken when a chunk is emitted:
`current_chunk[-overlap:] if len(current_chunk) > overlap else current_chunk`. -/
def ovSlice (ck : Chunker) (current : List Char) : List Char :=
  if ck.overlap < current.length then pyTakeLast ck.overlap current else current

/-- The body of the `for para in paragraphs:` loop of `chunk_document`. -/
def processPara (ck : Chunker) (document_id : List Char) (st : ChunkState)
    (para0 : List Char) : ChunkState :=
  let para := strip para0
  if para = [] then st
  else if ck.chunk_size < st.current.length + para.length ∧ st.current ≠ [] then
    let emitted : Chunk :=
      { chunk_id := mkChunkId document_id st.chunkIndex
        text := strip st.current
        start_char := st.chunkStart
        end_char := st.chunkStart + st.current.length
        chunk_index := st.chunkIndex }
    let overlap_text := ovSlice ck st.current
    let current' := overlap_text ++ nl2 ++ para
    { chunks := st.chunks ++ [emitted]
      current := current'
      chunkStart := st.chunkStart + current'.length - overlap_text.length - para.length - 2
      chunkIndex := st.chunkIndex + 1 }
  else
    { st with current := if st.current = [] then para else st.current ++ nl2 ++ para }

/-- `DocumentChunker.chunk_document`. -/
def chunk_document (ck : Chunker) (text document_id : List Char) : List Chunk :=
  if text = [] ∨ text.length < ck.chunk_size then
    [{ chunk_id := mkChunkId document_id 0
       text := text
       start_char := 0
       end_char := text.length
       chunk_index := 0 }]
  else
    let st := (splitParas text).foldl (processPara ck document_id)
      { chunks := [], current := [], chunkStart := 0, chunkIndex := 0 }
    if strip st.current ≠ [] then
      st.chunks ++
        [{ chunk_id := mkChunkId document_id st.chunkIndex
           text := strip st.current
           start_char := st.chunkStart
           end_char := st.chunkStart + st.current.length
           chunk_index := st.chunkIndex }]
    else st.chunks

/-- The seen-set loop of `find_relevant_chunks`: keep, in order, the
first occurrence of each keyword of length `> 3` (shorter keywords are
neither kept nor remembered, as in the source). -/
def dedupLong (seen : List (List Char)) :
    List (List Char) → List (List Char)
  | [] => []
  | kw :: rest =>
    if kw ∉ seen ∧ 3 < kw.length then kw :: dedupLong (kw :: seen) rest
    else dedupLong seen rest

/-- `DocumentChunker.find_relevant_chunks`: lowercase the keywords, extend
them with their individual whitespace-split word tokens, keep the distinct
ones longer than three characters, and keep every chunk whose lowercased
text contains one of them as a substring. -/
def find_relevant_chunks (chunks : List Chunk) (event_keywords : List (List Char)) :
    List Chunk :=
  let keywords_lower := event_keywords.map lowerL
  let partial_keywords := keywords_lower.flatMap (fun kw => pySplitWs kw ++ [kw])
  let unique_keywords := dedupLong [] partial_keywords
  chunks.filter (fun chunk =>
    unique_keywords.any (fun keyword => containsSub keyword (lowerL chunk.text)))

/-! ### Instrumented chunker

`ichunk_document` runs the same loop as `chunk_document` but each emitted
chunk additionally records `pre`, the pre-`strip` accumulated
`current_chunk` at the moment of emission, and `carried`, the overlap text
that was carried into this chunk's accumulation (empty for the first).
Projecting to the `text` field recovers `chunk_document` exactly
(`ichunk_texts_eq` below). -/

/-- A chunk together with its pre-strip accumulated text and the overlap
carried into it. -/
structure IChunk where
  text : List Char
  pre : List Char
  carried : List Char
deriving DecidableEq, Repr

/-- Instrumented loop state. -/
structure IState where
  ichunks : List IChunk
  current : List Char
  carried : List Char

/-- Instrumented body of the paragraph loop: identical control flow and
text arithmetic to `processPara`. -/
def iProcessPara (ck : Chunker) (st : IState) (para0 : List Char) : IState :=
  let para := strip para0
  if para = [] then st
  else if ck.chunk_size < st.current.length + para.length ∧ st.current ≠ [] then
    let overlap_text := ovSlice ck st.current
    { ichunks := st.ichunks ++ [⟨strip st.current, st.current, st.carried⟩]
      current := overlap_text ++ nl2 ++ para
      carried := overlap_text }
  else
    { st with current := if st.current = [] then para else st.current ++ nl2 ++ para }

/-- Instrumented `chunk_document` (the `document_id` bookkeeping plays no
role in the text fields and is omitted). -/
def ichunk_document (ck : Chunker) (text : List Char) : List IChunk :=
  if text = [] ∨ text.length < ck.chunk_size then [⟨text, text, []⟩]
  else
    let st := (splitParas text).foldl (iProcessPara ck)
      { ichunks := [], current := [], carried := [] }
    if strip st.current ≠ [] then
      st.ichunks ++ [⟨strip st.current, st.current, st.carried⟩]
    else st.ichunks

/-- A list of characters whose last character, if any, is not whitespace.
Every `current_chunk` the paragraph loop builds has this shape, because
paragraphs are stripped before being appended. -/
def EndsNW (l : List Char) : Prop := ∀ c ∈ l.getLast?, isSpaceCh c = false

/-- The loop invariant of the instrumented chunker: structural facts about
the accumulated state, the chain linking each chunk's carried overlap to
its predecessor's pre-strip text, and the accounting of the non-whitespace
characters consumed so far (`acc`). -/
structure ChunkInv (ck : Chunker) (st : IState) (acc : List Char) : Prop where
  currNil : st.current = [] → st.ichunks = [] ∧ st.carried = []
  currEnd : EndsNW st.current
  carriedPrefix : st.carried <+: st.current
  carriedEnd : EndsNW st.carried
  chunkText : ∀ c ∈ st.ichunks, c.text = strip c.pre
  chunkPreNil : ∀ c ∈ st.ichunks, c.pre ≠ []
  chunkPreEnd : ∀ c ∈ st.ichunks, EndsNW c.pre
  chunkCarriedPrefix : ∀ c ∈ st.ichunks, c.carried <+: c.pre
  chunkCarriedEnd : ∀ c ∈ st.ichunks, EndsNW c.carried
  headCarried : ∀ c ∈ st.ichunks.head?, c.carried = []
  chain : List.Chain' (fun a b => b.carried = ovSlice ck a.pre) st.ichunks
  lastCarried : (match st.ichunks.getLast? with
    | some a => st.carried = ovSlice ck a.pre
    | none => st.carried = [])
  account : acc = ((st.ichunks.map
      (fun c => nonWs (c.pre.drop c.carried.length))).flatten)
    ++ nonWs (st.current.drop st.carried.length)

/-! ### Spec-side relevance predicate

Restates the specification's relevance rule verbatim, to be compared with
the source-derived `find_relevant_chunks`. -/

/-- Modelled from the spec's words, as amended: a chunk is relevant when
some lowercased keyword, or some individual word token of one, of length
greater than three, occurs as a substring of the chunk's lowercased
text. -/
def relevantSpec (event_keywords : List (List Char)) (chunk : Chunk) : Bool :=
  ((event_keywords.map lowerL).flatMap (fun kw => pySplitWs kw ++ [kw])).any
    (fun k => decide (3 < k.length) && containsSub k (lowerL chunk.text))

/-! ## Statistics module (`src/llm_judge/statistics.py`) -/

/-- The four categorical bins used by `calculate_cohens_kappa`
(`'low'`, `'medium-low'`, `'medium-high'`, `'high'`). -/
inductive Cat where
  | low | mediumLow | mediumHigh | high
deriving DecidableEq, Repr, Fintype

/-- `categorize` from `calculate_cohens_kappa`: convert a score to a
categorical bin (`0-25, 26-50, 51-75, 76-100` on in-range scores). -/
def categorize (score : ℤ) : Cat :=
  if score ≤ 25 then .low
  else if score ≤ 50 then .mediumLow
  else if score ≤ 75 then .mediumHigh
  else .high

/-- The Python exceptions the statistics module can raise. -/
inductive PyError where
  | valueError (msg : String)
  | zeroDivisionError
deriving DecidableEq, Repr

/-- `calculate_cohens_kappa` from `src/llm_judge/statistics.py`.

Raises `ValueError` when the rating lists have different lengths; dividing
by `n = 0` (two equal-length empty lists) raises `ZeroDivisionError`.
Exact fraction arithmetic stands in for Python floats. -/
def calculate_cohens_kappa (ratings1 ratings2 : List ℤ) : Except PyError ℚ :=
  if ratings1.length ≠ ratings2.length then
    .error (.valueError "Ratings must have same length")
  else
    let cats1 := ratings1.map categorize
    let cats2 := ratings2.map categorize
    let n := cats1.length
    if n = 0 then .error .zeroDivisionError
    else
      let observed_agreement : ℚ :=
        (((cats1.zip cats2).filter (fun p => p.1 = p.2)).length : ℚ) / n
      let expected_agreement : ℚ :=
        (((cats1 ++ cats2).dedup).map
          (fun cat => ((cats1.count cat : ℚ) / n) * ((cats2.count cat : ℚ) / n))).sum
      if expected_agreement = 1 then .ok 1
      else .ok ((observed_agreement - expected_agreement) / (1 - expected_agreement))

/-- The record returned by `calculate_variance`.  `std_dev` is the real
square root of the (sample) variance, matching `statistics.stdev`. -/
structure VarStats where
  mean : ℚ
  variance : ℚ
  std_dev : ℝ
  min : ℤ
  max : ℤ
  count : ℕ

/-- Python `min` over a non-empty list of ints ( `0` is never reached:
`calculate_variance` only calls this on non-empty input). -/
def listMin : List ℤ → ℤ
  | [] => 0
  | x :: xs => xs.foldl Min.min x

/-- Python `max` over a non-empty list of ints. -/
def listMax : List ℤ → ℤ
  | [] => 0
  | x :: xs => xs.foldl Max.max x

/-- `statistics.mean` over integers, as an exact fraction. -/
def pyMean (scores : List ℤ) : ℚ := (scores.sum : ℚ) / scores.length

/-- `statistics.variance` (sample variance, denominator `n - 1`). -/
def sampleVariance (scores : List ℤ) : ℚ :=
  ((scores.map (fun x => ((x : ℚ) - pyMean scores) ^ 2)).sum) / (scores.length - 1)

/-- `calculate_variance` from `src/llm_judge/statistics.py`. -/
noncomputable def calculate_variance (scores : List ℤ) : VarStats :=
  if scores = [] then
    { mean := 0, variance := 0, std_dev := 0, min := 0, max := 0, count := 0 }
  else
    { mean := pyMean scores
      variance := if 1 < scores.length then sampleVariance scores else 0
      std_dev := if 1 < scores.length then Real.sqrt (sampleVariance scores) else 0
      min := listMin scores
      max := listMax scores
      count := scores.length }

/-! ### Spec-side statistics definitions

These restate the specification's description of Cohen's kappa verbatim, to
be compared with the source-derived `calculate_cohens_kappa` above. -/

/-- Modelled from the spec's words: scores are "binned into four fixed
quartile categories (0-25, 26-50, 51-75, 76-100)".  The final bin is the
catch-all; on the spec's 0-100 score range the four conditions written here
are exactly the four quartile intervals. -/
def specCategorize (score : ℤ) : Cat :=
  if 0 ≤ score ∧ score ≤ 25 then .low
  else if 26 ≤ score ∧ score ≤ 50 then .mediumLow
  else if 51 ≤ score ∧ score ≤ 75 then .mediumHigh
  else .high

/-- Modelled from the spec's words: "observed agreement = fraction of
matching bins". -/
def specObserved (r1 r2 : List ℤ) : ℚ :=
  ((((r1.map specCategorize).zip (r2.map specCategorize)).filter
    (fun p => p.1 = p.2)).length : ℚ) / r1.length

/-- Modelled from the spec's words: "expected agreement = sum over
categories of marginal-probability products" — the sum ranges over all four
categories. -/
def specExpected (r1 r2 : List ℤ) : ℚ :=
  (([Cat.low, Cat.mediumLow, Cat.mediumHigh, Cat.high]).map
    (fun cat => (((r1.map specCategorize).count cat : ℚ) / r1.length) *
      (((r2.map specCategorize).count cat : ℚ) / r2.length))).sum

/-- Modelled from the spec's words: "kappa = (observed − expected)/(1 −
expected), with the degenerate case expected=1 ⇒ kappa=1". -/
def specKappa (r1 r2 : List ℤ) : ℚ :=
  if specExpected r1 r2 = 1 then 1
  else (specObserved r1 r2 - specExpected r1 r2) / (1 - specExpected r1 r2)

/-! ## Comparator (`src/llm_judge/comparator.py`)

An extraction is a JSON object; the fields the comparator reads are
modelled as `Option (List Char)` so that a missing key (`None` from
`dict.get`) is distinguishable from a present-but-empty string, exactly as
in Python, where both are falsy but only a missing key triggers a
`dict.get` default. -/

/-- The fields of one entry of `event_extractions.json` that the comparator
and the extraction main script read. -/
structure Extraction where
  event : Option (List Char)
  author : Option (List Char)
  claims : Option (List (List Char))
  source_document : Option (List Char)
deriving DecidableEq, Repr

/-- Python truthiness of `extraction.get('claims')`: a present, non-empty
list. -/
def claimsTruthy (e : Extraction) : Bool :=
  match e.claims with
  | some l => !l.isEmpty
  | none => false

/-- One entry of the list returned by `create_comparison_pairs`. -/
structure ComparisonPair where
  event_id : List Char
  event_name : List Char
  lincoln_extraction : Extraction
  other_extraction : Extraction
  lincoln_source : List Char
  other_source : List Char
  lincoln_author : List Char
  other_author : List Char
deriving DecidableEq, Repr

/-- Append `e` to the group keyed `k` of an insertion-ordered association
list (the behaviour of `defaultdict(list)` followed by `dict(...)`). -/
def insertGrouped (k : List Char) (e : Extraction) :
    List (List Char × List Extraction) → List (List Char × List Extraction)
  | [] => [(k, [e])]
  | (k', g) :: rest =>
    if k' = k then (k', g ++ [e]) :: rest else (k', g) :: insertGrouped k e rest

/-- `ExtractionComparator.group_by_event`: group extractions by their
`event` field, skipping entries whose `event` is missing or falsy; keys
appear in order of first appearance (Python dict insertion order). -/
def group_by_event (extractions : List Extraction) :
    List (List Char × List Extraction) :=
  extractions.foldl
    (fun acc ext =>
      match ext.event with
      | some eid => if eid = [] then acc else insertGrouped eid ext acc
      | none => acc)
    []

/-- `ExtractionComparator.separate_lincoln_and_others`: an extraction is a
Lincoln account when its lowercased author contains `'lincoln'` or
`'abraham lincoln'` as a substring. -/
def isLincolnExt (e : Extraction) : Bool :=
  let author := lowerL (e.author.getD [])
  containsSub ("lincoln".data) author || containsSub ("abraham lincoln".data) author

/-- `ExtractionComparator.separate_lincoln_and_others`. -/
def separate_lincoln_and_others (event_extractions : List Extraction) :
    List Extraction × List Extraction :=
  (event_extractions.filter isLincolnExt,
   event_extractions.filter (fun e => !isLincolnExt e))

/-- The `event_names` mapping hard-coded in `create_comparison_pairs`,
with the `event_id.replace('_',' ').title()` fallback left abstract (its
value never matters to the claims, only that it is a function of the id). -/
def eventNameOf (event_id : List Char) : List Char :=
  if event_id = "election_night_1860".data then "Election Night 1860".data
  else if event_id = "fort_sumter".data then "Fort Sumter Decision".data
  else if event_id = "gettysburg_address".data then "Gettysburg Address".data
  else if event_id = "second_inaugural".data then "Second Inaugural Address".data
  else if event_id = "fords_theatre".data then "Ford's Theatre Assassination".data
  else event_id

/-- `ExtractionComparator.create_comparison_pairs`: for each event group,
pair each Lincoln extraction with each other-author extraction, but only
when both sides have truthy `claims`. -/
def create_comparison_pairs (extractions : List Extraction) : List ComparisonPair :=
  (group_by_event extractions).flatMap (fun grp =>
    let event_id := grp.1
    let event_name := eventNameOf event_id
    let sep := separate_lincoln_and_others grp.2
    sep.1.flatMap (fun lincoln_ext =>
      sep.2.filterMap (fun other_ext =>
        if claimsTruthy lincoln_ext ∧ claimsTruthy other_ext then
          some { event_id := event_id
                 event_name := event_name
                 lincoln_extraction := lincoln_ext
                 other_extraction := other_ext
                 lincoln_source := lincoln_ext.source_document.getD "Unknown".data
                 other_source := other_ext.source_document.getD "Unknown".data
                 lincoln_author := lincoln_ext.author.getD "Abraham Lincoln".data
                 other_author := other_ext.author.getD "Unknown".data }
        else none)))

/-! ## Resume tracking in the extraction main script
(`src/event_extraction/main.py`, lines 93-110) -/

/-- The loop in `main()` that walks the pre-existing
`event_extractions.json` entries to "build" the `processed_pairs` set: for
each entry it reads `source_document` and `event`, and when both are truthy
executes `pass` — it never adds anything to the accumulating set (modelled
as an insertion-ordered list of pairs). -/
def build_processed_pairs (existing : List Extraction) :
    List (List Char × List Char) :=
  existing.foldl
    (fun processed ext =>
      let doc_id := ext.source_document.getD []
      let event_id := ext.event.getD []
      if doc_id ≠ [] ∧ event_id ≠ [] then
        processed
      else processed)
    []

/-- The resume-loading step of `main()` as a whole: carry over the loaded
extractions unchanged and the `processed_pairs` set built by the loop. -/
def resume_load (existing : List Extraction) :
    List Extraction × List (List Char × List Char) :=
  (existing, build_processed_pairs existing)

/-! ## Helper lemmas -/

theorem foldl_const {α β : Type} (f : β → α → β) (hf : ∀ b a, f b a = b) :
    ∀ (l : List α) (b : β), l.foldl f b = b := by
  intro l
  induction l with
  | nil => intro b; rfl
  | cons a t ih => intro b; rw [List.foldl_cons, hf, ih]

theorem zip_self_filter_length {α : Type} [DecidableEq α] (l : List α) :
    ((l.zip l).filter (fun p => p.1 = p.2)).length = l.length := by
  induction l with
  | nil => rfl
  | cons a t ih => simpa using ih

theorem mem_dedupLong (k : List Char) :
    ∀ (l : List (List Char)) (seen : List (List Char)),
      k ∈ dedupLong seen l ↔ k ∈ l ∧ k ∉ seen ∧ 3 < k.length := by
  intro l
  induction l with
  | nil => intro seen; simp [dedupLong]
  | cons kw rest ih =>
    intro seen
    rw [dedupLong]
    by_cases hk : k = kw
    · subst hk
      split_ifs with h
      · simp [h.1, h.2]
      · rw [ih]
        push_neg at h
        constructor
        · rintro ⟨_, hns, hlen⟩
          exact absurd (h hns) (by omega)
        · rintro ⟨_, hns, hlen⟩
          exact absurd (h hns) (by omega)
    · split_ifs with h
      · rw [List.mem_cons, ih]
        simp [hk]
      · rw [ih]
        simp [hk]

theorem any_dedupLong (l : List (List Char)) (f : List Char → Bool) :
    (dedupLong [] l).any f = l.any (fun k => decide (3 < k.length) && f k) := by
  have h : ((dedupLong [] l).any f = true) ↔
      (l.any (fun k => decide (3 < k.length) && f k) = true) := by
    simp only [List.any_eq_true, Bool.and_eq_true, decide_eq_true_eq]
    constructor
    · rintro ⟨k, hk, hf⟩
      rw [mem_dedupLong] at hk
      exact ⟨k, hk.1, hk.2.2, hf⟩
    · rintro ⟨k, hk, hlen, hf⟩
      exact ⟨k, (mem_dedupLong k l []).mpr ⟨hk, by simp, hlen⟩, hf⟩
  cases h1 : (dedupLong [] l).any f <;>
    cases h2 : l.any (fun k => decide (3 < k.length) && f k) <;>
      simp_all

theorem categorize_eq_spec {s : ℤ} (h0 : 0 ≤ s) (h1 : s ≤ 100) :
    categorize s = specCategorize s := by
  unfold categorize specCategorize
  split_ifs <;> first | rfl | omega

theorem sum_dedup_cats (l : List Cat) (f : Cat → ℚ)
    (h0 : ∀ c, c ∉ l → f c = 0) :
    ((l.dedup).map f).sum =
      ([Cat.low, Cat.mediumLow, Cat.mediumHigh, Cat.high].map f).sum := by
  have hdt : l.dedup.toFinset = l.toFinset := by
    ext c
    simp [List.mem_toFinset, List.mem_dedup]
  have hLHS : ((l.dedup).map f).sum = l.toFinset.sum f := by
    rw [← hdt, List.sum_toFinset f l.nodup_dedup]
  have hsub : l.toFinset ⊆
      ({Cat.low, Cat.mediumLow, Cat.mediumHigh, Cat.high} : Finset Cat) := by
    intro c _
    cases c <;> simp
  have hzero : ∀ c ∈ ({Cat.low, Cat.mediumLow, Cat.mediumHigh, Cat.high} : Finset Cat),
      c ∉ l.toFinset → f c = 0 := by
    intro c _ hc
    exact h0 c (by simpa using hc)
  rw [hLHS, Finset.sum_subset hsub hzero]
  rw [Finset.sum_insert (by decide), Finset.sum_insert (by decide),
    Finset.sum_insert (by decide), Finset.sum_singleton]
  simp

theorem keys_insertGrouped (k : List Char) (e : Extraction) :
    ∀ acc : List (List Char × List Extraction),
      (insertGrouped k e acc).map Prod.fst =
        if k ∈ acc.map Prod.fst then acc.map Prod.fst else acc.map Prod.fst ++ [k] := by
  intro acc
  induction acc with
  | nil => simp [insertGrouped]
  | cons hd tl ih =>
    obtain ⟨k', g'⟩ := hd
    rw [insertGrouped]
    by_cases hk : k' = k
    · subst hk
      rw [if_pos rfl]
      simp
    · rw [if_neg hk]
      simp only [List.map_cons, List.mem_cons, ih]
      by_cases hmem : k ∈ tl.map Prod.fst
      · rw [if_pos hmem, if_pos (Or.inr hmem)]
      · rw [if_neg hmem,
          if_neg (by rw [not_or]; exact ⟨fun h => hk h.symm, hmem⟩),
          List.cons_append]

theorem nodup_keys_insertGrouped (k : List Char) (e : Extraction)
    (acc : List (List Char × List Extraction))
    (h : (acc.map Prod.fst).Nodup) :
    ((insertGrouped k e acc).map Prod.fst).Nodup := by
  rw [keys_insertGrouped]
  split_ifs with hmem
  · exact h
  · rw [List.nodup_append]
    refine ⟨h, List.nodup_singleton _, ?_⟩
    intro a ha hb
    rw [List.mem_singleton] at hb
    subst hb
    exact hmem ha

theorem nodup_keys_group_by_event (exts : List Extraction) :
    ((group_by_event exts).map Prod.fst).Nodup := by
  rw [group_by_event]
  suffices h : ∀ (l : List Extraction) (acc : List (List Char × List Extraction)),
      (acc.map Prod.fst).Nodup →
      ((l.foldl (fun acc ext =>
        match ext.event with
        | some eid => if eid = [] then acc else insertGrouped eid ext acc
        | none => acc) acc).map Prod.fst).Nodup by
    exact h exts [] (by simp)
  intro l
  induction l with
  | nil => intro acc h; exact h
  | cons ext tl ih =>
    intro acc h
    rw [List.foldl_cons]
    apply ih
    cases hev : ext.event with
    | none => exact h
    | some eid =>
      simp only
      split_ifs with he
      · exact h
      · exact nodup_keys_insertGrouped eid ext acc h

theorem length_filterMap_ite {α β : Type} (P : α → Prop) [DecidablePred P]
    (Q : α → Bool) (mk : α → β) (hPQ : ∀ a, P a ↔ Q a = true) :
    ∀ l : List α,
      (l.filterMap (fun o => if P o then some (mk o) else none)).length =
        (l.filter Q).length := by
  intro l
  induction l with
  | nil => rfl
  | cons a t ih =>
    rw [List.filterMap_cons, List.filter_cons]
    by_cases h : P a
    · rw [if_pos h, if_pos ((hPQ a).mp h)]
      simp [ih]
    · rw [if_neg h, if_neg (by rw [← hPQ a]; exact h)]
      exact ih

theorem flatMap_pairs_length (mk : Extraction → Extraction → ComparisonPair)
    (others : List Extraction) :
    ∀ lincolns : List Extraction,
      (lincolns.flatMap (fun lx => others.filterMap (fun o =>
        if claimsTruthy lx ∧ claimsTruthy o then some (mk lx o) else none))).length =
      (lincolns.filter claimsTruthy).length * (others.filter claimsTruthy).length := by
  intro lincolns
  induction lincolns with
  | nil => simp
  | cons lx t ih =>
    rw [List.flatMap_cons, List.length_append, ih, List.filter_cons]
    by_cases hl : claimsTruthy lx
    · have h1 : (others.filterMap (fun o =>
          if claimsTruthy lx ∧ claimsTruthy o then some (mk lx o) else none)).length =
          (others.filter claimsTruthy).length := by
        apply length_filterMap_ite _ claimsTruthy
        intro o
        simp [hl]
      rw [h1, if_pos hl]
      simp [Nat.succ_mul, Nat.add_comm]
    · have h1 : (others.filterMap (fun o =>
          if claimsTruthy lx ∧ claimsTruthy o then some (mk lx o) else none)).length =
          (others.filter (fun _ => false)).length := by
        apply length_filterMap_ite _ (fun _ => false)
        intro o
        simp [hl]
      rw [h1, if_neg hl]
      simp

theorem mem_flatMap_pairs {p : ComparisonPair}
    (mk : Extraction → Extraction → ComparisonPair)
    (lincolns others : List Extraction)
    (hp : p ∈ lincolns.flatMap (fun lx => others.filterMap (fun o =>
      if claimsTruthy lx ∧ claimsTruthy o then some (mk lx o) else none))) :
    ∃ lx o, p = mk lx o := by
  rw [List.mem_flatMap] at hp
  obtain ⟨lx, _, hp⟩ := hp
  rw [List.mem_filterMap] at hp
  obtain ⟨o, _, hp⟩ := hp
  split at hp
  · exact ⟨lx, o, (Option.some_inj.mp hp).symm⟩
  · exact absurd hp (by simp)

theorem filter_flatMap {α β : Type} (l : List α) (f : α → List β) (p : β → Bool) :
    (l.flatMap f).filter p = l.flatMap (fun a => (f a).filter p) := by
  induction l with
  | nil => rfl
  | cons a t ih => rw [List.flatMap_cons, List.flatMap_cons, List.filter_append, ih]

theorem sum_single_key {γ : Type} (F : List Char × γ → ℕ) (k : List Char) (g : γ) :
    ∀ l : List (List Char × γ),
      (l.map Prod.fst).Nodup → (k, g) ∈ l →
      (∀ a ∈ l, a.1 ≠ k → F a = 0) →
      (l.map F).sum = F (k, g) := by
  intro l
  induction l with
  | nil => intro _ hmem; exact absurd hmem (by simp)
  | cons hd tl ih =>
    intro hnd hmem hzero
    rw [List.map_cons, List.nodup_cons] at hnd
    rw [List.map_cons, List.sum_cons]
    rcases List.mem_cons.mp hmem with heq | hmem'
    · subst heq
      have htl : (tl.map F).sum = 0 := by
        apply List.sum_eq_zero
        intro x hx
        rw [List.mem_map] at hx
        obtain ⟨a, ha, rfl⟩ := hx
        apply hzero a (List.mem_cons_of_mem _ ha)
        intro hak
        have hmk : a.1 ∈ tl.map Prod.fst := List.mem_map_of_mem Prod.fst ha
        rw [hak] at hmk
        exact hnd.1 hmk
      rw [htl, Nat.add_zero]
    · have hhd : F hd = 0 := by
        apply hzero hd (List.mem_cons_self hd tl)
        intro hk
        have hmk : k ∈ tl.map Prod.fst :=
          List.mem_map_of_mem Prod.fst hmem'
        rw [← hk] at hmk
        exact hnd.1 hmk
      rw [hhd, ih hnd.2 hmem'
        (fun a ha hak => hzero a (List.mem_cons_of_mem _ ha) hak), Nat.zero_add]

/-! ### Whitespace and strip toolkit -/

theorem nonWs_append (a b : List Char) : nonWs (a ++ b) = nonWs a ++ nonWs b := by
  simp [nonWs]

theorem nonWs_cons_ws {c : Char} (h : isSpaceCh c = true) (l : List Char) :
    nonWs (c :: l) = nonWs l := by
  simp [nonWs, List.filter_cons, h]

theorem nonWs_lstrip (l : List Char) : nonWs (lstrip l) = nonWs l := by
  induction l with
  | nil => rfl
  | cons c t ih =>
    rw [lstrip, List.dropWhile_cons]
    split_ifs with h
    · rw [← lstrip, ih, nonWs_cons_ws h]
    · rfl

theorem nonWs_reverse (l : List Char) : nonWs l.reverse = (nonWs l).reverse :=
  List.filter_reverse _ _

theorem nonWs_rstrip (l : List Char) : nonWs (rstrip l) = nonWs l := by
  rw [rstrip, nonWs_reverse, ← lstrip, nonWs_lstrip, nonWs_reverse,
    List.reverse_reverse]

theorem nonWs_strip (l : List Char) : nonWs (strip l) = nonWs l := by
  rw [strip, nonWs_rstrip, nonWs_lstrip]

theorem nonWs_nl2 : nonWs nl2 = [] := rfl

theorem nonWs_nil : nonWs [] = [] := rfl

theorem nonWs_eq_nil_of_strip_nil {l : List Char} (h : strip l = []) :
    nonWs l = [] := by
  rw [← nonWs_strip, h]
  rfl

theorem head_dropWhile_false {p : Char → Bool} :
    ∀ {l : List Char} {c : Char}, (l.dropWhile p).head? = some c → p c = false := by
  intro l
  induction l with
  | nil => intro c h; exact absurd h (by simp)
  | cons a t ih =>
    intro c h
    rw [List.dropWhile_cons] at h
    split_ifs at h with ha
    · exact ih h
    · rw [List.head?_cons, Option.some_inj] at h
      subst h
      simpa using ha

theorem endsNW_rstrip (l : List Char) : EndsNW (rstrip l) := by
  intro c hc
  rw [rstrip, ← List.head?_reverse, List.reverse_reverse] at hc
  exact head_dropWhile_false hc

theorem endsNW_strip (l : List Char) : EndsNW (strip l) := endsNW_rstrip _

theorem rstrip_of_endsNW {l : List Char} (h : EndsNW l) : rstrip l = l := by
  rw [rstrip]
  cases hrev : l.reverse with
  | nil =>
    rw [List.dropWhile_nil]
    simp [List.reverse_eq_nil_iff.mp hrev]
  | cons c t =>
    have hc : isSpaceCh c = false := by
      apply h
      rw [← List.head?_reverse, hrev]
      rfl
    rw [List.dropWhile_cons, if_neg (by simp [hc]), ← hrev, List.reverse_reverse]

theorem getLast?_suffix {l' l : List Char} (hs : l' <:+ l) (hne : l' ≠ []) :
    l'.getLast? = l.getLast? := by
  obtain ⟨pre, rfl⟩ := hs
  rw [List.getLast?_append]
  cases hl : l'.getLast? with
  | none => exact absurd (List.getLast?_eq_none_iff.mp hl) hne
  | some c => rfl

theorem endsNW_suffix {l' l : List Char} (hs : l' <:+ l) (h : EndsNW l) :
    EndsNW l' := by
  intro c hc
  by_cases hne : l' = []
  · subst hne
    exact absurd hc (by simp)
  · exact h c (getLast?_suffix hs hne ▸ hc)

theorem endsNW_append_right {a b : List Char} (hb : b ≠ []) (h : EndsNW b) :
    EndsNW (a ++ b) := by
  intro c hc
  rw [List.getLast?_append] at hc
  cases hlb : b.getLast? with
  | none => exact absurd (List.getLast?_eq_none_iff.mp hlb) hb
  | some d =>
    rw [hlb] at hc
    exact h c (hlb ▸ hc)

theorem mem_nonws_of_endsNW {l : List Char} (hne : l ≠ []) (h : EndsNW l) :
    ∃ c ∈ l, isSpaceCh c = false :=
  ⟨l.getLast hne, List.getLast_mem hne,
    h _ (List.getLast?_eq_getLast l hne ▸ rfl)⟩

theorem lstrip_append_of_mem {a : List Char}
    (ha : ∃ c ∈ a, isSpaceCh c = false) (b : List Char) :
    lstrip (a ++ b) = lstrip a ++ b := by
  induction a with
  | nil => exact absurd ha (by simp)
  | cons c t ih =>
    rw [List.cons_append, lstrip, lstrip, List.dropWhile_cons, List.dropWhile_cons]
    split_ifs with hc
    · obtain ⟨d, hd, hdf⟩ := ha
      rcases List.mem_cons.mp hd with rfl | hd'
      · rw [hc] at hdf
        exact absurd hdf (by simp)
      · exact ih ⟨d, hd', hdf⟩
    · rfl

theorem lstrip_of_head_nonws {c : Char} (hc : isSpaceCh c = false)
    (l : List Char) : lstrip (c :: l) = c :: l := by
  rw [lstrip, List.dropWhile_cons, if_neg (by simp [hc])]

theorem strip_of_nonws {l : List Char} (h : ∀ c ∈ l, isSpaceCh c = false) :
    strip l = l := by
  have hl : lstrip l = l := by
    cases l with
    | nil => rfl
    | cons c t => exact lstrip_of_head_nonws (h c (List.mem_cons_self c t)) t
  rw [strip, hl, rstrip_of_endsNW]
  intro c hc
  cases hll : l.getLast? with
  | none => exact absurd hc (hll ▸ by simp)
  | some d =>
    rw [hll, Option.mem_def, Option.some_inj] at hc
    subst hc
    apply h
    cases l with
    | nil => exact absurd hll (by simp)
    | cons a t =>
      have := List.getLast?_eq_getLast (a :: t) (by simp)
      rw [this, Option.some_inj] at hll
      exact hll ▸ List.getLast_mem _

theorem lstrip_suffix (l : List Char) : lstrip l <:+ l :=
  List.dropWhile_suffix _

theorem strip_eq_lstrip_of_endsNW {l : List Char} (h : EndsNW l) :
    strip l = lstrip l := by
  rw [strip, rstrip_of_endsNW (endsNW_suffix (lstrip_suffix l) h)]

theorem strip_ne_nil_of_endsNW {l : List Char} (hne : l ≠ []) (h : EndsNW l) :
    strip l ≠ [] := by
  intro hs
  obtain ⟨c, hc, hcf⟩ := mem_nonws_of_endsNW hne h
  have : nonWs l = [] := nonWs_eq_nil_of_strip_nil hs
  have : c ∈ nonWs l := by
    rw [nonWs, List.mem_filter]
    exact ⟨hc, by simp [hcf]⟩
  simp_all

theorem ovSlice_suffix (ck : Chunker) (l : List Char) : ovSlice ck l <:+ l := by
  rw [ovSlice, pyTakeLast]
  split_ifs with h1 h2
  · exact List.suffix_refl l
  · exact List.drop_suffix _ l
  · exact List.suffix_refl l

theorem ovSlice_ne_nil (ck : Chunker) {l : List Char} (h : l ≠ []) :
    ovSlice ck l ≠ [] := by
  rw [ovSlice, pyTakeLast]
  split_ifs with h1 h2
  · exact h
  · have hlen : 0 < l.length := List.length_pos.mpr h
    intro hc
    have := congrArg List.length hc
    rw [List.length_drop, List.length_nil] at this
    omega
  · exact h

/-! ### Paragraph splitter lemmas -/

theorem lastNewlineIdx_lt :
    ∀ {l : List Char} {k : ℕ}, lastNewlineIdx l = some k → k < l.length := by
  intro l
  induction l with
  | nil => intro k h; exact absurd h (by simp [lastNewlineIdx])
  | cons c rest ih =>
    intro k h
    rw [lastNewlineIdx] at h
    cases hr : lastNewlineIdx rest with
    | some i =>
      rw [hr] at h
      rw [Option.some_inj] at h
      subst h
      have := ih hr
      simp only [List.length_cons]
      omega
    | none =>
      rw [hr] at h
      split_ifs at h with hc
      rw [Option.some_inj] at h
      subst h
      simp

theorem sepConsume_le {rest : List Char} {n : ℕ} (h : sepConsume rest = some n) :
    n ≤ rest.length := by
  rw [sepConsume, Option.map_eq_some'] at h
  obtain ⟨k, hk, rfl⟩ := h
  have h1 := lastNewlineIdx_lt hk
  have h2 : (rest.takeWhile isSpaceCh).length ≤ rest.length :=
    (List.takeWhile_prefix _).length_le
  omega

theorem sepConsume_ws {rest : List Char} {n : ℕ} (h : sepConsume rest = some n) :
    ∀ c ∈ rest.take n, isSpaceCh c = true := by
  rw [sepConsume, Option.map_eq_some'] at h
  obtain ⟨k, hk, rfl⟩ := h
  have h1 := lastNewlineIdx_lt hk
  intro c hc
  obtain ⟨rem, hrem⟩ := (List.takeWhile_prefix (l := rest) isSpaceCh)
  have htake : rest.take (k + 1) = (rest.takeWhile isSpaceCh).take (k + 1) := by
    conv_lhs => rw [← hrem]
    exact List.take_append_of_le_length (by omega)
  rw [htake] at hc
  exact List.mem_takeWhile_imp (List.take_subset _ _ hc)

theorem nonWs_drop_of_sepConsume {rest : List Char} {n : ℕ}
    (h : sepConsume rest = some n) : nonWs (rest.drop n) = nonWs rest := by
  conv_rhs => rw [← List.take_append_drop n rest]
  rw [nonWs_append]
  have : nonWs (rest.take n) = [] := by
    rw [nonWs, List.filter_eq_nil_iff]
    intro c hc
    simp [sepConsume_ws h c hc]
  rw [this, List.nil_append]

theorem nonWs_splitGo :
    ∀ (fuel : ℕ) (l acc : List Char), l.length ≤ fuel →
      (((splitGo fuel l acc).map nonWs).flatten) = nonWs acc.reverse ++ nonWs l := by
  intro fuel
  induction fuel with
  | zero =>
    intro l acc hl
    rw [List.length_eq_zero.mp (Nat.le_zero.mp hl)]
    simp [splitGo, nonWs]
  | succ fuel ih =>
    intro l acc hl
    cases l with
    | nil => simp [splitGo, nonWs]
    | cons c rest =>
      rw [List.length_cons, Nat.succ_le_succ_iff] at hl
      rw [splitGo]
      split_ifs with hc
      · cases hsep : sepConsume rest with
        | some n =>
          rw [List.map_cons, List.flatten_cons,
            ih (rest.drop n) []
              (by rw [List.length_drop]; exact le_trans (Nat.sub_le _ _) hl)]
          subst hc
          rw [nonWs_drop_of_sepConsume hsep, nonWs_cons_ws (by rfl) rest]
          simp [nonWs]
        | none =>
          rw [ih rest (c :: acc) hl, List.reverse_cons, nonWs_append]
          subst hc
          rw [nonWs_cons_ws (by rfl) rest]
          have : nonWs ['\n'] = [] := rfl
          rw [this, List.append_nil]
      · rw [ih rest (c :: acc) hl, List.reverse_cons, nonWs_append]
        have hsplit : nonWs (c :: rest) = nonWs [c] ++ nonWs rest := by
          simp only [nonWs, List.filter_cons, List.filter_nil]
          split_ifs <;> simp
        rw [hsplit, List.append_assoc]

theorem nonWs_splitParas (text : List Char) :
    (((splitParas text).map nonWs).flatten) = nonWs text := by
  rw [splitParas, nonWs_splitGo text.length text [] le_rfl]
  rfl

theorem splitGo_nonws_prefix {p : List Char}
    (hp : ∀ c ∈ p, isSpaceCh c = false) :
    ∀ (fuel : ℕ) (rest acc : List Char), (p ++ rest).length ≤ fuel →
      splitGo fuel (p ++ rest) acc =
        splitGo (fuel - p.length) rest (p.reverse ++ acc) := by
  induction p with
  | nil => intro fuel rest acc h; simp
  | cons c t ih =>
    intro fuel rest acc h
    cases fuel with
    | zero => simp at h
    | succ fuel =>
      rw [List.cons_append, splitGo,
        if_neg (by
          intro hcn
          have := hp c (List.mem_cons_self c t)
          rw [hcn] at this
          simp [isSpaceCh] at this)]
      rw [ih (fun d hd => hp d (List.mem_cons_of_mem c hd)) fuel rest (c :: acc)
        (by simpa using Nat.succ_le_succ_iff.mp (by simpa using h))]
      simp [List.append_assoc]

theorem splitParas_two_paras {p1 p2 : List Char}
    (h1 : ∀ c ∈ p1, isSpaceCh c = false) (h2 : ∀ c ∈ p2, isSpaceCh c = false) :
    splitParas (p1 ++ nl2 ++ p2) = [p1, p2] := by
  rw [splitParas, List.append_assoc, splitGo_nonws_prefix h1 _ _ _ (by simp)]
  have hlen : (p1 ++ (nl2 ++ p2)).length - p1.length = p2.length + 2 := by
    simp [nl2]
  rw [hlen]
  show splitGo (p2.length + 1 + 1) ('\n' :: '\n' :: p2) (p1.reverse ++ []) = _
  rw [splitGo, if_pos rfl]
  have hsep : sepConsume ('\n' :: p2) = some 1 := by
    rw [sepConsume]
    have htw : ('\n' :: p2).takeWhile isSpaceCh = '\n' :: p2.takeWhile isSpaceCh := by
      rw [List.takeWhile_cons, if_pos (by rfl)]
    have htwp : p2.takeWhile isSpaceCh = [] := by
      cases hp2 : p2 with
      | nil => rfl
      | cons d t =>
        rw [List.takeWhile_cons, if_neg]
        rw [h2 d (hp2 ▸ List.mem_cons_self d t)]
        simp
    rw [htw, htwp]
    rfl
  rw [hsep]
  simp only [List.drop_succ_cons, List.drop_zero, List.append_nil,
    List.reverse_reverse]
  congr 1
  have hrw := splitGo_nonws_prefix h2 (p2.length + 1) [] [] (by simp)
  rw [List.append_nil] at hrw
  rw [hrw, show p2.length + 1 - p2.length = 1 by omega, splitGo]
  simp

/-! ### Chunker loop invariant -/

theorem chain'_imp_mem {α : Type} {R S : α → α → Prop} :
    ∀ (l : List α), List.Chain' R l →
      (∀ a ∈ l, ∀ b ∈ l, R a b → S a b) → List.Chain' S l := by
  intro l
  induction l with
  | nil => intro _ _; exact List.chain'_nil
  | cons a t ih =>
    intro hc hm
    cases t with
    | nil => exact List.chain'_singleton a
    | cons b t2 =>
      rw [List.chain'_cons] at hc ⊢
      refine ⟨hm a (by simp) b (by simp) hc.1, ih hc.2 ?_⟩
      intro x hx y hy hr
      exact hm x (List.mem_cons_of_mem a hx) y (List.mem_cons_of_mem a hy) hr

theorem chunkInv_init (ck : Chunker) :
    ChunkInv ck { ichunks := [], current := [], carried := [] } [] := by
  refine
    { currNil := fun _ => ⟨rfl, rfl⟩
      currEnd := ?_
      carriedPrefix := List.nil_prefix
      carriedEnd := ?_
      chunkText := ?_
      chunkPreNil := ?_
      chunkPreEnd := ?_
      chunkCarriedPrefix := ?_
      chunkCarriedEnd := ?_
      headCarried := ?_
      chain := List.chain'_nil
      lastCarried := rfl
      account := ?_ } <;>
  simp [EndsNW, nonWs]

theorem chunkInv_step (ck : Chunker) {st : IState} {acc : List Char}
    (h : ChunkInv ck st acc) (para0 : List Char) :
    ChunkInv ck (iProcessPara ck st para0) (acc ++ nonWs para0) := by
  rw [iProcessPara]
  by_cases hpe : strip para0 = []
  · rw [if_pos hpe, nonWs_eq_nil_of_strip_nil hpe, List.append_nil]
    exact h
  · rw [if_neg hpe]
    have hparaEnd : EndsNW (strip para0) := endsNW_strip para0
    have hpnw : nonWs (strip para0) = nonWs para0 := nonWs_strip para0
    by_cases hover : ck.chunk_size < st.current.length + (strip para0).length ∧
        st.current ≠ []
    · rw [if_pos hover]
      dsimp only
      obtain ⟨hsize, hcne⟩ := hover
      have hovne : ovSlice ck st.current ≠ [] := ovSlice_ne_nil ck hcne
      have hovsuf : ovSlice ck st.current <:+ st.current := ovSlice_suffix ck st.current
      have hovEnd : EndsNW (ovSlice ck st.current) := endsNW_suffix hovsuf h.currEnd
      refine
        { currNil := ?_
          currEnd := endsNW_append_right hpe hparaEnd
          carriedPrefix := ?_
          carriedEnd := hovEnd
          chunkText := ?_
          chunkPreNil := ?_
          chunkPreEnd := ?_
          chunkCarriedPrefix := ?_
          chunkCarriedEnd := ?_
          headCarried := ?_
          chain := ?_
          lastCarried := ?_
          account := ?_ }
      · intro habs
        simp [nl2] at habs
      · rw [List.append_assoc]
        exact List.prefix_append _ _
      · intro c hc
        rcases List.mem_append.mp hc with hold | hnew
        · exact h.chunkText c hold
        · rw [List.mem_singleton.mp hnew]
      · intro c hc
        rcases List.mem_append.mp hc with hold | hnew
        · exact h.chunkPreNil c hold
        · rw [List.mem_singleton.mp hnew]
          exact hcne
      · intro c hc
        rcases List.mem_append.mp hc with hold | hnew
        · exact h.chunkPreEnd c hold
        · rw [List.mem_singleton.mp hnew]
          exact h.currEnd
      · intro c hc
        rcases List.mem_append.mp hc with hold | hnew
        · exact h.chunkCarriedPrefix c hold
        · rw [List.mem_singleton.mp hnew]
          exact h.carriedPrefix
      · intro c hc
        rcases List.mem_append.mp hc with hold | hnew
        · exact h.chunkCarriedEnd c hold
        · rw [List.mem_singleton.mp hnew]
          exact h.carriedEnd
      · intro c hc
        cases hold : st.ichunks with
        | nil =>
          rw [hold] at hc
          simp only [List.nil_append, List.head?_cons, Option.mem_def,
            Option.some_inj] at hc
          subst hc
          have hl := h.lastCarried
          rw [hold] at hl
          exact hl
        | cons o t =>
          rw [hold] at hc
          simp only [List.cons_append, List.head?_cons, Option.mem_def,
            Option.some_inj] at hc
          subst hc
          apply h.headCarried
          rw [hold]
          rfl
      · rw [List.chain'_append]
        refine ⟨h.chain, List.chain'_singleton _, ?_⟩
        intro x hx y hy
        rw [List.head?_cons, Option.mem_def, Option.some_inj] at hy
        subst hy
        have hl := h.lastCarried
        rw [Option.mem_def] at hx
        rw [hx] at hl
        exact hl
      · rw [List.getLast?_concat]
      · have hdrop :
            ((ovSlice ck st.current ++ nl2 ++ strip para0).drop
              (ovSlice ck st.current).length) = nl2 ++ strip para0 := by
          rw [List.append_assoc, List.drop_left]
        rw [hdrop, List.map_append, List.flatten_append, h.account]
        simp only [List.map_cons, List.map_nil, List.flatten_cons,
          List.flatten_nil, List.append_nil]
        rw [nonWs_append, nonWs_nl2, List.nil_append, hpnw, List.append_assoc]
    · rw [if_neg hover]
      by_cases hcur : st.current = []
      · obtain ⟨hnil1, hnil2⟩ := h.currNil hcur
        refine
          { currNil := fun _ => ⟨hnil1, hnil2⟩
            currEnd := ?_
            carriedPrefix := ?_
            carriedEnd := h.carriedEnd
            chunkText := h.chunkText
            chunkPreNil := h.chunkPreNil
            chunkPreEnd := h.chunkPreEnd
            chunkCarriedPrefix := h.chunkCarriedPrefix
            chunkCarriedEnd := h.chunkCarriedEnd
            headCarried := h.headCarried
            chain := h.chain
            lastCarried := h.lastCarried
            account := ?_ }
        · rw [if_pos hcur]
          exact hparaEnd
        · rw [if_pos hcur, hnil2]
          exact List.nil_prefix
        · rw [if_pos hcur, h.account, hnil1, hnil2, hcur]
          simp only [List.map_nil, List.flatten_nil, List.nil_append,
            List.length_nil, List.drop_zero, List.drop_nil, nonWs_nil]
          rw [hpnw]
      · refine
          { currNil := ?_
            currEnd := ?_
            carriedPrefix := ?_
            carriedEnd := h.carriedEnd
            chunkText := h.chunkText
            chunkPreNil := h.chunkPreNil
            chunkPreEnd := h.chunkPreEnd
            chunkCarriedPrefix := h.chunkCarriedPrefix
            chunkCarriedEnd := h.chunkCarriedEnd
            headCarried := h.headCarried
            chain := h.chain
            lastCarried := h.lastCarried
            account := ?_ }
        · rw [if_neg hcur]
          intro habs
          simp [nl2] at habs
        · rw [if_neg hcur]
          exact endsNW_append_right hpe hparaEnd
        · rw [if_neg hcur, List.append_assoc]
          exact h.carriedPrefix.trans (List.prefix_append _ _)
        · rw [if_neg hcur]
          have hlen : st.carried.length ≤ st.current.length :=
            h.carriedPrefix.length_le
          rw [List.append_assoc, List.drop_append_of_le_length hlen,
            nonWs_append, nonWs_append, nonWs_nl2, List.nil_append, hpnw,
            h.account, List.append_assoc]

theorem chunkInv_fold (ck : Chunker) :
    ∀ (paras : List (List Char)) (st : IState) (acc : List Char),
      ChunkInv ck st acc →
      ChunkInv ck (paras.foldl (iProcessPara ck) st)
        (acc ++ (paras.map nonWs).flatten) := by
  intro paras
  induction paras with
  | nil => intro st acc h; simpa using h
  | cons p t ih =>
    intro st acc h
    rw [List.foldl_cons, List.map_cons, List.flatten_cons, ← List.append_assoc]
    exact ih _ _ (chunkInv_step ck h p)

theorem ichunk_final (ck : Chunker) (text : List Char)
    (htext : ¬(text = [] ∨ text.length < ck.chunk_size)) :
    (∀ c ∈ (ichunk_document ck text).head?, c.carried = []) ∧
    List.Chain' (fun a b => b.carried = ovSlice ck a.pre) (ichunk_document ck text) ∧
    (∀ c ∈ ichunk_document ck text,
      c.text = strip c.pre ∧ c.pre ≠ [] ∧ EndsNW c.pre ∧
        c.carried <+: c.pre ∧ EndsNW c.carried) ∧
    ((ichunk_document ck text).map
      (fun c => nonWs (c.pre.drop c.carried.length))).flatten = nonWs text := by
  have hinv := chunkInv_fold ck (splitParas text)
    { ichunks := [], current := [], carried := [] } [] (chunkInv_init ck)
  rw [List.nil_append, nonWs_splitParas] at hinv
  rw [ichunk_document, if_neg htext]
  dsimp only
  set st := (splitParas text).foldl (iProcessPara ck)
    { ichunks := [], current := [], carried := [] } with hst
  by_cases hflush : strip st.current ≠ []
  · rw [if_pos hflush]
    have hcne : st.current ≠ [] := by
      intro habs
      rw [habs] at hflush
      exact hflush rfl
    refine ⟨?_, ?_, ?_, ?_⟩
    · intro c hc
      cases hold : st.ichunks with
      | nil =>
        rw [hold] at hc
        simp only [List.nil_append, List.head?_cons, Option.mem_def,
          Option.some_inj] at hc
        subst hc
        have hl := hinv.lastCarried
        rw [hold] at hl
        exact hl
      | cons o t =>
        rw [hold] at hc
        simp only [List.cons_append, List.head?_cons, Option.mem_def,
          Option.some_inj] at hc
        subst hc
        apply hinv.headCarried
        rw [hold]
        rfl
    · rw [List.chain'_append]
      refine ⟨hinv.chain, List.chain'_singleton _, ?_⟩
      intro x hx y hy
      rw [List.head?_cons, Option.mem_def, Option.some_inj] at hy
      subst hy
      have hl := hinv.lastCarried
      rw [Option.mem_def] at hx
      rw [hx] at hl
      exact hl
    · intro c hc
      rcases List.mem_append.mp hc with hold | hnew
      · exact ⟨hinv.chunkText c hold, hinv.chunkPreNil c hold,
          hinv.chunkPreEnd c hold, hinv.chunkCarriedPrefix c hold,
          hinv.chunkCarriedEnd c hold⟩
      · rw [List.mem_singleton.mp hnew]
        exact ⟨rfl, hcne, hinv.currEnd, hinv.carriedPrefix, hinv.carriedEnd⟩
    · rw [List.map_append, List.flatten_append]
      simp only [List.map_cons, List.map_nil, List.flatten_cons,
        List.flatten_nil, List.append_nil]
      rw [← hinv.account]
  · rw [if_neg hflush]
    push_neg at hflush
    have hcur : st.current = [] := by
      by_contra hcne
      exact strip_ne_nil_of_endsNW hcne hinv.currEnd hflush
    obtain ⟨hnil1, hnil2⟩ := hinv.currNil hcur
    have hacc := hinv.account
    rw [hnil1, hcur, hnil2] at hacc
    simp only [List.map_nil, List.flatten_nil, List.nil_append,
      List.length_nil, List.drop_nil, nonWs_nil] at hacc
    rw [hnil1]
    refine ⟨by simp, List.chain'_nil, by simp, ?_⟩
    simp [← hacc]

theorem step_agree (ck : Chunker) (document_id : List Char)
    {st : ChunkState} {ist : IState}
    (h1 : st.current = ist.current)
    (h2 : st.chunks.map Chunk.text = ist.ichunks.map IChunk.text)
    (p : List Char) :
    (processPara ck document_id st p).current = (iProcessPara ck ist p).current ∧
    (processPara ck document_id st p).chunks.map Chunk.text =
      (iProcessPara ck ist p).ichunks.map IChunk.text := by
  rw [processPara, iProcessPara, h1]
  split_ifs <;>
    refine ⟨?_, ?_⟩ <;>
      first
        | exact h1
        | exact h2
        | rfl
        | (dsimp only; rw [List.map_append, List.map_append, h2]; rfl)

theorem fold_agree (ck : Chunker) (document_id : List Char) :
    ∀ (paras : List (List Char)) (st : ChunkState) (ist : IState),
      st.current = ist.current →
      st.chunks.map Chunk.text = ist.ichunks.map IChunk.text →
      ((paras.foldl (processPara ck document_id) st).current =
        (paras.foldl (iProcessPara ck) ist).current ∧
       (paras.foldl (processPara ck document_id) st).chunks.map Chunk.text =
        (paras.foldl (iProcessPara ck) ist).ichunks.map IChunk.text) := by
  intro paras
  induction paras with
  | nil => intro st ist h1 h2; exact ⟨h1, h2⟩
  | cons p t ih =>
    intro st ist h1 h2
    rw [List.foldl_cons, List.foldl_cons]
    obtain ⟨hc, ht⟩ := step_agree ck document_id h1 h2 p
    exact ih _ _ hc ht

theorem chunk_texts_agree (ck : Chunker) (text document_id : List Char) :
    (chunk_document ck text document_id).map Chunk.text =
      (ichunk_document ck text).map IChunk.text := by
  rw [chunk_document, ichunk_document]
  by_cases htext : text = [] ∨ text.length < ck.chunk_size
  · rw [if_pos htext, if_pos htext]
    rfl
  · rw [if_neg htext, if_neg htext]
    dsimp only
    obtain ⟨hc, ht⟩ := fold_agree ck document_id (splitParas text)
      { chunks := [], current := [], chunkStart := 0, chunkIndex := 0 }
      { ichunks := [], current := [], carried := [] } rfl rfl
    rw [hc]
    by_cases hflush :
        strip ((splitParas text).foldl (iProcessPara ck)
          { ichunks := [], current := [], carried := [] }).current ≠ []
    · rw [if_pos hflush, if_pos hflush, List.map_append, List.map_append, ht]
      rfl
    · rw [if_neg hflush, if_neg hflush]
      exact ht

theorem lstrip_nil : lstrip [] = [] := rfl

theorem endsNW_of_nonws {l : List Char} (h : ∀ c ∈ l, isSpaceCh c = false) :
    EndsNW l := by
  intro c hc
  cases hl : l.getLast? with
  | none => exact absurd hc (hl ▸ by simp)
  | some d =>
    rw [hl, Option.mem_def, Option.some_inj] at hc
    subst hc
    apply h
    cases l with
    | nil => exact absurd hl (by simp)
    | cons a t =>
      have hg := List.getLast?_eq_getLast (a :: t) (by simp)
      rw [hg, Option.some_inj] at hl
      exact hl ▸ List.getLast_mem _

theorem ichunk_chain_prefix (ck : Chunker) (text : List Char) :
    List.Chain' (fun a b => lstrip (ovSlice ck a.pre) <+: b.text)
      (ichunk_document ck text) := by
  by_cases htext : text = [] ∨ text.length < ck.chunk_size
  · rw [ichunk_document, if_pos htext]
    exact List.chain'_singleton _
  · obtain ⟨hhead, hchain, hfacts, hacc⟩ := ichunk_final ck text htext
    apply chain'_imp_mem _ hchain
    intro a ha b hb hr
    rw [← hr]
    obtain ⟨htext', hpne, hpend, hcpre, hcend⟩ := hfacts b hb
    by_cases hbc : b.carried = []
    · rw [hbc, lstrip_nil]
      exact List.nil_prefix
    · obtain ⟨rest, hrest⟩ := hcpre
      rw [htext', strip_eq_lstrip_of_endsNW hpend, ← hrest,
        lstrip_append_of_mem (mem_nonws_of_endsNW hbc hcend)]
      exact List.prefix_append _ _

theorem ichunk_text_join (ck : Chunker) (text : List Char) :
    ((ichunk_document ck text).map
      (fun c => nonWs (c.text.drop (lstrip c.carried).length))).flatten =
      nonWs text := by
  by_cases htext : text = [] ∨ text.length < ck.chunk_size
  · rw [ichunk_document, if_pos htext]
    simp [lstrip_nil]
  · obtain ⟨hhead, hchain, hfacts, hacc⟩ := ichunk_final ck text htext
    rw [← hacc]
    congr 1
    apply List.map_congr_left
    intro c hc
    obtain ⟨htext', hpne, hpend, hcpre, hcend⟩ := hfacts c hc
    by_cases hbc : c.carried = []
    · rw [hbc, lstrip_nil, htext', strip_eq_lstrip_of_endsNW hpend]
      simp only [List.length_nil, List.drop_zero]
      exact nonWs_lstrip c.pre
    · obtain ⟨rest, hrest⟩ := hcpre
      rw [htext', strip_eq_lstrip_of_endsNW hpend, ← hrest,
        lstrip_append_of_mem (mem_nonws_of_endsNW hbc hcend),
        List.drop_left, List.drop_left]

theorem ichunk_head_drop (ck : Chunker) (text : List Char) :
    ∀ c ∈ (ichunk_document ck text).head?, (lstrip c.carried).length = 0 := by
  by_cases htext : text = [] ∨ text.length < ck.chunk_size
  · rw [ichunk_document, if_pos htext]
    intro c hc
    simp only [List.head?_cons, Option.mem_def, Option.some_inj] at hc
    subst hc
    rfl
  · intro c hc
    rw [(ichunk_final ck text htext).1 c hc, lstrip_nil]
    rfl

theorem zipWith_map_same {α β γ δ : Type} (f : α → β) (g : α → γ)
    (h : β → γ → δ) (l : List α) :
    List.zipWith h (l.map f) (l.map g) = l.map (fun x => h (f x) (g x)) := by
  induction l with
  | nil => rfl
  | cons a t ih => simp [ih]

/-! ## Claim theorems -/

/-- **C9.** The `processed_pairs` resume-tracking set in the
event-extraction main script is never populated: whatever the contents of a
pre-existing `event_extractions.json`, after the resume-loading step the
set is still empty, so no (document, event) unit of work can ever be
skipped by consulting it. -/
theorem processed_pairs_never_populated (existing : List Extraction) :
    (resume_load existing).2 = [] ∧ build_processed_pairs existing = [] := by
  have h : build_processed_pairs existing = [] := by
    unfold build_processed_pairs
    exact foldl_const _ (fun b a => by simp) existing []
  exact ⟨h, h⟩

/-- **C5.** `calculate_variance` on the empty list returns the all-zero
record with count 0, and on any single-element list `[x]` returns variance
0 and standard deviation 0, with mean, min and max equal to `x` and
count 1. -/
theorem calculate_variance_degenerate :
    calculate_variance ([] : List ℤ) =
      { mean := 0, variance := 0, std_dev := 0, min := 0, max := 0, count := 0 } ∧
    ∀ x : ℤ, calculate_variance [x] =
      { mean := (x : ℚ), variance := 0, std_dev := 0, min := x, max := x, count := 1 } := by
  constructor
  · simp [calculate_variance]
  · intro x
    simp [calculate_variance, pyMean, listMin, listMax]

/-- **C10.** `calculate_cohens_kappa` raises `ValueError` exactly when the
two rating lists have different lengths, and on equal-length non-empty
lists returns a numeric value without raising. -/
theorem cohens_kappa_error_iff (r1 r2 : List ℤ) :
    ((∃ msg, calculate_cohens_kappa r1 r2 = .error (.valueError msg)) ↔
      r1.length ≠ r2.length) ∧
    (r1.length = r2.length → r1 ≠ [] →
      ∃ q, calculate_cohens_kappa r1 r2 = .ok q) := by
  by_cases hlen : r1.length = r2.length
  · constructor
    · rw [calculate_cohens_kappa]
      simp only [hlen, ne_eq, not_true_eq_false, if_false, iff_false, not_exists]
      by_cases hnil : r1 = []
      · subst hnil
        simp
      · intro msg
        have hn : (r1.map categorize).length ≠ 0 := by
          simpa using hnil
        simp only [hn, if_neg, if_false]
        split <;> simp
    · intro _ hnil
      rw [calculate_cohens_kappa]
      have hn : (r1.map categorize).length ≠ 0 := by
        simpa using hnil
      simp only [hlen, ne_eq, not_true_eq_false, if_false, hn]
      split <;> exact ⟨_, rfl⟩
  · constructor
    · rw [calculate_cohens_kappa]
      simp [hlen]
    · intro h
      exact absurd h hlen

/-- Witness for `cohens_kappa_error_iff` at the concrete input
`[10], [10]`. -/
theorem cohens_kappa_error_iff_witness :
    ∃ q, calculate_cohens_kappa [10] [10] = .ok q :=
  (cohens_kappa_error_iff [10] [10]).2 rfl (by decide)

/-- **C4.** Cohen's kappa of two identical integer score lists of length at
least 2 whose quartile bins are not all identical is exactly 1. -/
theorem cohens_kappa_self (r : List ℤ) (hlen : 2 ≤ r.length)
    (hspread : ∃ x ∈ r, ∃ y ∈ r, categorize x ≠ categorize y) :
    calculate_cohens_kappa r r = .ok 1 := by
  have hnil : r ≠ [] := by
    intro h
    subst h
    simp at hlen
  have hn : (r.map categorize).length ≠ 0 := by simpa using hnil
  have hnq : ((r.map categorize).length : ℚ) ≠ 0 := by exact_mod_cast hn
  rw [calculate_cohens_kappa]
  simp only [ne_eq, not_true_eq_false, if_false, hn]
  have hobs :
      ((((r.map categorize).zip (r.map categorize)).filter
        (fun p => p.1 = p.2)).length : ℚ) / ((r.map categorize).length : ℚ) = 1 := by
    rw [zip_self_filter_length]
    exact div_self hnq
  split
  · rfl
  · next hexp =>
    rw [hobs]
    congr 1
    exact div_self (sub_ne_zero.mpr (Ne.symm hexp))

/-- Witness for `cohens_kappa_self` at the concrete input `[10, 80]`. -/
theorem cohens_kappa_self_witness : calculate_cohens_kappa [10, 80] [10, 80] = .ok 1 :=
  cohens_kappa_self [10, 80] (by decide)
    ⟨10, by decide, 80, by decide, by decide⟩

/-- **C3.** On equal-length non-empty lists of 0-100 integer scores,
`calculate_cohens_kappa` computes exactly the specification's formula:
quartile binning, observed agreement as the fraction of matching bins,
expected agreement as the sum over the categories of the marginal
probability products, and kappa `(observed − expected)/(1 − expected)`
with the degenerate case `expected = 1 ↦ 1`. -/
theorem cohens_kappa_matches_spec (r1 r2 : List ℤ)
    (hlen : r1.length = r2.length) (hnil : r1 ≠ [])
    (hrange : ∀ s ∈ r1 ++ r2, 0 ≤ s ∧ s ≤ 100) :
    calculate_cohens_kappa r1 r2 = .ok (specKappa r1 r2) := by
  have hc1 : r1.map categorize = r1.map specCategorize :=
    List.map_congr_left fun s hs =>
      categorize_eq_spec (hrange s (List.mem_append_left _ hs)).1
        (hrange s (List.mem_append_left _ hs)).2
  have hc2 : r2.map categorize = r2.map specCategorize :=
    List.map_congr_left fun s hs =>
      categorize_eq_spec (hrange s (List.mem_append_right _ hs)).1
        (hrange s (List.mem_append_right _ hs)).2
  have hn : (r1.map categorize).length ≠ 0 := by simpa using hnil
  have hO : ((((r1.map categorize).zip (r2.map categorize)).filter
        (fun p => p.1 = p.2)).length : ℚ) / ((r1.map categorize).length : ℚ) =
      specObserved r1 r2 := by
    rw [hc1, hc2, specObserved]
    simp
  have h0 : ∀ c, c ∉ (r1.map categorize ++ r2.map categorize) →
      (((r1.map categorize).count c : ℚ) / ((r1.map categorize).length : ℚ)) *
        (((r2.map categorize).count c : ℚ) / ((r1.map categorize).length : ℚ)) = 0 := by
    intro c hc
    rw [List.mem_append] at hc
    push_neg at hc
    rw [List.count_eq_zero.mpr hc.1]
    simp
  have hE : ((((r1.map categorize) ++ (r2.map categorize)).dedup).map
        (fun cat => (((r1.map categorize).count cat : ℚ) /
            ((r1.map categorize).length : ℚ)) *
          (((r2.map categorize).count cat : ℚ) /
            ((r1.map categorize).length : ℚ)))).sum = specExpected r1 r2 := by
    rw [sum_dedup_cats _ _ h0, specExpected]
    rw [hc1, hc2]
    simp [hlen]
  rw [calculate_cohens_kappa, specKappa]
  simp only [hlen, ne_eq, not_true_eq_false, if_false, hn]
  rw [hO, hE]
  split <;> rfl

/-- Witness for `cohens_kappa_matches_spec` at the concrete input
`[10, 30]`, `[10, 80]`. -/
theorem cohens_kappa_matches_spec_witness :
    calculate_cohens_kappa [10, 30] [10, 80] = .ok (specKappa [10, 30] [10, 80]) :=
  cohens_kappa_matches_spec [10, 30] [10, 80] rfl (by decide) (by decide)

/-- **C2.** For every document id and every text strictly shorter than the
configured chunk size, `chunk_document` returns exactly one chunk whose
text is the full input, with `start_char = 0`, `end_char` the input length
and `chunk_index = 0`. -/
theorem chunk_document_short (ck : Chunker) (text document_id : List Char)
    (h : text.length < ck.chunk_size) :
    chunk_document ck text document_id =
      [{ chunk_id := mkChunkId document_id 0
         text := text
         start_char := 0
         end_char := text.length
         chunk_index := 0 }] := by
  rw [chunk_document, if_pos (Or.inr h)]

/-- Witness for `chunk_document_short` at the concrete input `"hi"` with
the default configuration. -/
theorem chunk_document_short_witness :
    chunk_document { chunk_size := 2000, overlap := 200 } "hi".data "doc1".data =
      [{ chunk_id := mkChunkId "doc1".data 0
         text := "hi".data
         start_char := 0
         end_char := ("hi".data).length
         chunk_index := 0 }] :=
  chunk_document_short _ _ _ (by decide)

/-- **C1 (counterexample).** A chunk containing the full keyword `"war"`
as a substring is *not* marked relevant, because the source applies the
`len > 3` filter to full keywords as well as to word tokens: the claim
that "a chunk containing any full keyword as a substring is marked
relevant" fails at this input. -/
theorem find_relevant_chunks_short_keyword :
    find_relevant_chunks
        [{ chunk_id := "d_chunk_0".data, text := "the war began".data,
           start_char := 0, end_char := 13, chunk_index := 0 }]
        ["war".data] = [] ∧
    containsSub (lowerL "war".data) (lowerL "the war began".data) = true := by
  constructor <;> rfl

/-- **C6 (counterexample).** `create_comparison_pairs` is *not* a full
cross-product join: with one Lincoln extraction (whose `claims` list is
empty) and one other-author extraction grouped under the same event, the
full cross-product would contain `1 × 1 = 1` pair, but no pair is emitted,
because the source only pairs extractions that both have non-empty
`claims`. -/
theorem create_comparison_pairs_not_cross_product :
    create_comparison_pairs
        [{ event := some "fort_sumter".data, author := some "Abraham Lincoln".data,
           claims := some [], source_document := some "docA".data },
         { event := some "fort_sumter".data, author := some "John Hay".data,
           claims := some ["claim1".data], source_document := some "docB".data }] = [] ∧
    (separate_lincoln_and_others
        [{ event := some "fort_sumter".data, author := some "Abraham Lincoln".data,
           claims := some [], source_document := some "docA".data },
         { event := some "fort_sumter".data, author := some "John Hay".data,
           claims := some ["claim1".data], source_document := some "docB".data }]).1.length = 1 ∧
    (separate_lincoln_and_others
        [{ event := some "fort_sumter".data, author := some "Abraham Lincoln".data,
           claims := some [], source_document := some "docA".data },
         { event := some "fort_sumter".data, author := some "John Hay".data,
           claims := some ["claim1".data], source_document := some "docB".data }]).2.length = 1 := by
  refine ⟨?_, ?_, ?_⟩ <;> rfl

/-- **C6 (amended).** For every event group produced by `group_by_event`,
the number of pairs `create_comparison_pairs` emits for that event equals
the number of its Lincoln extractions **with non-empty claims** times the
number of its other-author extractions **with non-empty claims** (the
cross-product join is restricted to extractions with truthy `claims`). -/
theorem create_comparison_pairs_counts (exts : List Extraction)
    (eid : List Char) (g : List Extraction)
    (hmem : (eid, g) ∈ group_by_event exts) :
    ((create_comparison_pairs exts).filter (fun p => p.event_id = eid)).length =
      ((separate_lincoln_and_others g).1.filter claimsTruthy).length *
      ((separate_lincoln_and_others g).2.filter claimsTruthy).length := by
  rw [create_comparison_pairs, filter_flatMap, List.length_flatMap]
  have hkey : ∀ grp : List Char × List Extraction, ∀ p : ComparisonPair,
      p ∈ (fun grp : List Char × List Extraction =>
        let event_id := grp.1
        let event_name := eventNameOf event_id
        let sep := separate_lincoln_and_others grp.2
        sep.1.flatMap (fun lincoln_ext =>
          sep.2.filterMap (fun other_ext =>
            if claimsTruthy lincoln_ext ∧ claimsTruthy other_ext then
              some { event_id := event_id
                     event_name := event_name
                     lincoln_extraction := lincoln_ext
                     other_extraction := other_ext
                     lincoln_source := lincoln_ext.source_document.getD "Unknown".data
                     other_source := other_ext.source_document.getD "Unknown".data
                     lincoln_author := lincoln_ext.author.getD "Abraham Lincoln".data
                     other_author := other_ext.author.getD "Unknown".data }
            else none))) grp →
      p.event_id = grp.1 := by
    intro grp p hp
    obtain ⟨lx, o, rfl⟩ := mem_flatMap_pairs _ _ _ hp
    rfl
  refine (sum_single_key _ eid g _ (nodup_keys_group_by_event exts) hmem ?_).trans ?_
  · intro a ha hak
    dsimp only [Function.comp]
    rw [List.length_eq_zero, List.filter_eq_nil_iff]
    intro p hp
    have := hkey a p hp
    simp only [this, decide_eq_true_eq]
    exact hak
  · dsimp only [Function.comp]
    rw [List.filter_eq_self.mpr (fun p hp => by
      have := hkey (eid, g) p hp
      simpa using this)]
    exact flatMap_pairs_length _ _ _

/-- Witness for `create_comparison_pairs_counts` at a concrete input of
two extractions (both with claims) over one event. -/
theorem create_comparison_pairs_counts_witness :
    ((create_comparison_pairs
        [{ event := some "fort_sumter".data, author := some "Abraham Lincoln".data,
           claims := some ["a".data], source_document := some "docA".data },
         { event := some "fort_sumter".data, author := some "John Hay".data,
           claims := some ["b".data], source_document := some "docB".data }]).filter
      (fun p => p.event_id = "fort_sumter".data)).length =
      ((separate_lincoln_and_others
        [{ event := some "fort_sumter".data, author := some "Abraham Lincoln".data,
           claims := some ["a".data], source_document := some "docA".data },
         { event := some "fort_sumter".data, author := some "John Hay".data,
           claims := some ["b".data], source_document := some "docB".data }]).1.filter
        claimsTruthy).length *
      ((separate_lincoln_and_others
        [{ event := some "fort_sumter".data, author := some "Abraham Lincoln".data,
           claims := some ["a".data], source_document := some "docA".data },
         { event := some "fort_sumter".data, author := some "John Hay".data,
           claims := some ["b".data], source_document := some "docB".data }]).2.filter
        claimsTruthy).length :=
  create_comparison_pairs_counts _ _ _ (by decide)

/-- **C8.** `chunk_document` never silently drops text: for every input
text and document id there is, for each chunk, a leading carried-over
overlap length (zero for the first chunk) such that concatenating the chunk
texts with those leading overlaps removed reproduces the non-whitespace
characters of the original text losslessly and in order. -/
theorem chunk_document_lossless (ck : Chunker) (text document_id : List Char) :
    ∃ drops : List ℕ,
      drops.length = (chunk_document ck text document_id).length ∧
      drops.headI = 0 ∧
      nonWs ((List.zipWith (fun t d => t.drop d)
        ((chunk_document ck text document_id).map Chunk.text) drops).flatten) =
        nonWs text := by
  refine ⟨(ichunk_document ck text).map (fun c => (lstrip c.carried).length),
    ?_, ?_, ?_⟩
  · rw [List.length_map]
    have hl := congrArg List.length (chunk_texts_agree ck text document_id)
    rw [List.length_map, List.length_map] at hl
    exact hl.symm
  · cases hics : ichunk_document ck text with
    | nil => rfl
    | cons c t =>
      rw [List.map_cons]
      show (lstrip c.carried).length = 0
      apply ichunk_head_drop ck text
      rw [hics]
      rfl
  · rw [chunk_texts_agree ck text document_id, zipWith_map_same, nonWs,
      List.filter_flatten, List.map_map]
    exact ichunk_text_join ck text

/-- **C7 (counterexample).** With `chunk_size 10`, `overlap 5` and input
`"aaa\n\nbbb\n\ncccc"`, chunking yields two chunks, but the second does
*not* begin with the trailing overlap-length suffix of the first chunk's
text: the carried overlap `"\n\nbbb"` begins with whitespace, which the
`strip()` applied to the stored chunk text removes. -/
theorem chunk_overlap_suffix_counterexample :
    (chunk_document { chunk_size := 10, overlap := 5 } "aaa\n\nbbb\n\ncccc".data
      "d".data).map Chunk.text = ["aaa\n\nbbb".data, "bbb\n\ncccc".data] ∧
    ¬ (pyTakeLast 5 "aaa\n\nbbb".data <+: "bbb\n\ncccc".data) := by
  constructor
  · decide
  · decide

/-- **C7 (amended).** In every multi-chunk split, every chunk except the
first begins with the *left-whitespace-stripped* trailing overlap-length
slice of the pre-strip text accumulated for the previous chunk (as
recorded by the instrumented chunker, whose chunk texts coincide with
`chunk_document`'s); in particular, an input of two whitespace-free
1200-character paragraphs with chunk size 2000 yields exactly two chunks,
the second beginning with the configured 200-character trailing suffix of
the first. -/
theorem chunk_overlap_behaviour :
    (∀ (ck : Chunker) (text document_id : List Char),
      (chunk_document ck text document_id).map Chunk.text =
        (ichunk_document ck text).map IChunk.text ∧
      List.Chain' (fun a b => lstrip (ovSlice ck a.pre) <+: b.text)
        (ichunk_document ck text)) ∧
    (∃ c1 c2,
      (chunk_document { chunk_size := 2000, overlap := 200 }
        (List.replicate 1200 'a' ++ nl2 ++ List.replicate 1200 'b')
        "doc".data).map Chunk.text = [c1, c2] ∧
      c1 = List.replicate 1200 'a' ∧
      pyTakeLast 200 c1 <+: c2) := by
  constructor
  · intro ck text document_id
    exact ⟨chunk_texts_agree ck text document_id, ichunk_chain_prefix ck text⟩
  · have hnw1 : ∀ c ∈ List.replicate 1200 'a', isSpaceCh c = false := by
      intro c hc
      rw [(List.mem_replicate.mp hc).2]
      rfl
    have hnw2 : ∀ c ∈ List.replicate 1200 'b', isSpaceCh c = false := by
      intro c hc
      rw [(List.mem_replicate.mp hc).2]
      rfl
    have hne1 : List.replicate 1200 'a' ≠ [] := by
      intro h
      have h' := congrArg List.length h
      rw [List.length_replicate, List.length_nil] at h'
      exact absurd h' (by decide)
    have hne2 : List.replicate 1200 'b' ≠ [] := by
      intro h
      have h' := congrArg List.length h
      rw [List.length_replicate, List.length_nil] at h'
      exact absurd h' (by decide)
    have hstrip1 : strip (List.replicate 1200 'a') = List.replicate 1200 'a' :=
      strip_of_nonws hnw1
    have hstrip2 : strip (List.replicate 1200 'b') = List.replicate 1200 'b' :=
      strip_of_nonws hnw2
    have hT : splitParas (List.replicate 1200 'a' ++ nl2 ++ List.replicate 1200 'b') =
        [List.replicate 1200 'a', List.replicate 1200 'b'] :=
      splitParas_two_paras hnw1 hnw2
    have hov : ovSlice { chunk_size := 2000, overlap := 200 }
        (List.replicate 1200 'a') = List.replicate 200 'a' := by
      rw [ovSlice]
      dsimp only
      rw [if_pos (by rw [List.length_replicate]; omega),
        pyTakeLast, if_neg (by omega), List.length_replicate,
        List.drop_replicate, show (1200 : ℕ) - (1200 - 200) = 200 from rfl]
    have h1 : processPara { chunk_size := 2000, overlap := 200 } "doc".data
        { chunks := [], current := [], chunkStart := 0, chunkIndex := 0 }
        (List.replicate 1200 'a') =
        { chunks := [], current := List.replicate 1200 'a',
          chunkStart := 0, chunkIndex := 0 } := by
      rw [processPara, hstrip1]
      dsimp only
      rw [if_neg hne1, if_neg (fun h => h.2 rfl), if_pos rfl]
    have h2 : processPara { chunk_size := 2000, overlap := 200 } "doc".data
        { chunks := [], current := List.replicate 1200 'a',
          chunkStart := 0, chunkIndex := 0 }
        (List.replicate 1200 'b') =
        { chunks := [{ chunk_id := mkChunkId "doc".data 0,
                       text := List.replicate 1200 'a',
                       start_char := 0,
                       end_char := 0 + ((List.replicate 1200 'a').length : ℤ),
                       chunk_index := 0 }],
          current := List.replicate 200 'a' ++ nl2 ++ List.replicate 1200 'b',
          chunkStart := 0 +
            ((List.replicate 200 'a' ++ nl2 ++ List.replicate 1200 'b').length : ℤ) -
            ((List.replicate 200 'a').length : ℤ) -
            ((List.replicate 1200 'b').length : ℤ) - 2,
          chunkIndex := 0 + 1 } := by
      rw [processPara, hstrip2]
      dsimp only
      rw [if_neg hne2,
        if_pos ⟨by rw [List.length_replicate, List.length_replicate]; omega, hne1⟩,
        hov, hstrip1, List.nil_append]
    have hEndC : EndsNW (List.replicate 200 'a' ++ nl2 ++ List.replicate 1200 'b') :=
      endsNW_append_right hne2 (endsNW_of_nonws hnw2)
    have hconsform :
        List.replicate 200 'a' ++ nl2 ++ List.replicate 1200 'b' =
          'a' :: (List.replicate 199 'a' ++ nl2 ++ List.replicate 1200 'b') := by
      rw [show (200 : ℕ) = 199 + 1 from rfl, List.replicate_succ,
        List.cons_append, List.cons_append]
    have hstripC :
        strip (List.replicate 200 'a' ++ nl2 ++ List.replicate 1200 'b') =
          List.replicate 200 'a' ++ nl2 ++ List.replicate 1200 'b' := by
      rw [strip_eq_lstrip_of_endsNW hEndC, hconsform,
        lstrip_of_head_nonws (by rfl)]
    have hfne :
        strip (List.replicate 200 'a' ++ nl2 ++ List.replicate 1200 'b') ≠ [] := by
      rw [hstripC, hconsform]
      exact List.cons_ne_nil _ _
    have hTne : ¬((List.replicate 1200 'a' ++ nl2 ++ List.replicate 1200 'b') = [] ∨
        (List.replicate 1200 'a' ++ nl2 ++ List.replicate 1200 'b').length < 2000) := by
      rw [not_or]
      constructor
      · intro h
        have h' := congrArg List.length h
        rw [List.length_append, List.length_append, List.length_replicate,
          List.length_replicate, List.length_nil,
          show nl2.length = 2 from rfl] at h'
        exact absurd h' (by decide)
      · rw [List.length_append, List.length_append, List.length_replicate,
          List.length_replicate, show nl2.length = 2 from rfl]
        omega
    have hmap : (chunk_document { chunk_size := 2000, overlap := 200 }
        (List.replicate 1200 'a' ++ nl2 ++ List.replicate 1200 'b')
        "doc".data).map Chunk.text =
        [List.replicate 1200 'a',
         List.replicate 200 'a' ++ nl2 ++ List.replicate 1200 'b'] := by
      rw [chunk_document, if_neg hTne, hT]
      dsimp only
      rw [List.foldl_cons, h1, List.foldl_cons, h2, List.foldl_nil]
      dsimp only
      rw [if_pos hfne, List.map_append, hstripC]
      rfl
    refine ⟨List.replicate 1200 'a',
      List.replicate 200 'a' ++ nl2 ++ List.replicate 1200 'b', hmap, rfl, ?_⟩
    have hpt : pyTakeLast 200 (List.replicate 1200 'a') = List.replicate 200 'a' := by
      rw [pyTakeLast, if_neg (by omega), List.length_replicate,
        List.drop_replicate]
    rw [hpt, List.append_assoc]
    exact List.prefix_append _ _

/-- **C1 (amended).** `find_relevant_chunks` returns exactly those chunks
whose lowercased text contains, as a substring, some lowercased keyword or
individual word token of a keyword **of length greater than 3** — the
length filter applies to full keywords as well as to word tokens. -/
theorem find_relevant_chunks_eq_spec (chunks : List Chunk)
    (event_keywords : List (List Char)) :
    find_relevant_chunks chunks event_keywords =
      chunks.filter (relevantSpec event_keywords) := by
  rw [find_relevant_chunks]
  apply List.filter_congr
  intro chunk _
  rw [relevantSpec]
  exact any_dedupLong _ _

end LincolnDivergence
